import Mathlib

/-!
Verification development for the PDF viewer widget (`pdf_viewer.py`).

The Python source is shallowly embedded: Python floats are modelled as
exact rationals (`ℚ`), Python strings as `List Char`, `OrderedDict`s as
association lists in insertion/recency order (head = oldest), Python
sets as lists, and Qt/fitz font-metric oracles as function parameters
`Char → ℚ`.  Fallible or stateful widget methods become pure functions
on explicit state records.
-/

namespace PDFViewer

/-! ## Python primitives -/

/-- Python `int(q)` on a float: truncation toward zero (stated with the
computable `Rat.floor`, which agrees with `⌊·⌋`). -/
def pyInt (q : ℚ) : ℤ := if 0 ≤ q then q.floor else -(-q).floor

/-- Python `round(q)` (banker's rounding): nearest integer, ties to even. -/
def pyRound (q : ℚ) : ℤ :=
  let f := q.floor
  let frac := q - f
  if frac < 1/2 then f
  else if 1/2 < frac then f + 1
  else if 2 ∣ f then f else f + 1

/-- Python `round(q, 3)`: rounding to 3 decimal places, as used in the
render-cache keys `(page_index, round(self._zoom, 3))`. -/
def round3 (q : ℚ) : ℚ := (pyRound (q * 1000) : ℚ) / 1000

/-- Python whitespace characters recognised by `str.strip()` / `str.isspace()`. -/
def pyIsSpace (c : Char) : Bool :=
  c = ' ' || c = '\t' || c = '\n' || c = '\r' || c = '\x0b' || c = '\x0c'

/-- Python `s.strip()`: remove leading and trailing whitespace. -/
def pyStrip (l : List Char) : List Char :=
  ((l.dropWhile pyIsSpace).reverse.dropWhile pyIsSpace).reverse

/-! ## OrderedDict model

Python's `OrderedDict` is modelled as an association list in
insertion/recency order: the head is the oldest (least recently used)
entry, the last element the most recent. -/

/-- Membership test `key in od`. -/
def odContains {K V : Type} [DecidableEq K] (l : List (K × V)) (k : K) : Bool :=
  l.any (fun p => p.1 = k)

/-- Lookup `od[key]` (first matching entry). -/
def odLookup {K V : Type} [DecidableEq K] (l : List (K × V)) (k : K) : Option V :=
  l.lookup k

/-- Assignment `od[key] = v`: updates the value in place if the key is
present (keeping its position), otherwise appends at the end. -/
def odSet {K V : Type} [DecidableEq K] (l : List (K × V)) (k : K) (v : V) : List (K × V) :=
  if odContains l k then l.map (fun p => if p.1 = k then (k, v) else p)
  else l ++ [(k, v)]

/-- `od.move_to_end(key)`: moves the entry for `key` to the most-recent
(last) position. -/
def odMoveToEnd {K V : Type} [DecidableEq K] (l : List (K × V)) (k : K) : List (K × V) :=
  l.filter (fun p => p.1 ≠ k) ++ l.filter (fun p => p.1 = k)

/-- `del od[key]`. -/
def odDel {K V : Type} [DecidableEq K] (l : List (K × V)) (k : K) : List (K × V) :=
  l.filter (fun p => p.1 ≠ k)

/-- The `while len(od) > cap: od.popitem(last=False)` loop in
`_on_render_finished`: repeatedly evict the oldest (head) entry until
the capacity bound holds. -/
def enforceCap {K V : Type} (cap : ℕ) (l : List (K × V)) : List (K × V) :=
  if cap < l.length then
    match l with
    | [] => []
    | _ :: rest => enforceCap cap rest
  else l
termination_by l.length

/-! ## Render cache state (`PDFViewWidget` async-rendering fields) -/

/-- Render-cache key: `(page_index, round(zoom, 3))`. -/
abbrev RenderKey : Type := ℤ × ℚ

/-- Model of a `QImage` delivered by a `RenderWorker`: an abstract image
identifier plus its `isNull()` flag. -/
structure QImageM where
  data : ℕ
  isNull : Bool
deriving DecidableEq

/-- The async-rendering state of `PDFViewWidget`: the two cache tiers
(`_render_cache`, `_low_res_cache`), the `_pending_renders` set, the
committed `_zoom`, and the `_is_zooming` flag. -/
structure RenderState where
  renderCache : List (RenderKey × ℕ)
  lowResCache : List (RenderKey × ℕ)
  pendingRenders : List RenderKey
  zoom : ℚ
  isZooming : Bool
deriving DecidableEq

/-- `PDFViewWidget._on_render_finished(image, is_high_res, page_index, key)`:
remove the key from the pending set on a high-res completion, discard the
result when the key no longer matches `(page_index, round(self._zoom, 3))`,
otherwise insert the pixmap into the matching tier and evict beyond
capacity (30 high-res / 150 low-res). -/
def onRenderFinished (s : RenderState) (image : QImageM) (isHighRes : Bool)
    (pageIndex : ℤ) (key : RenderKey) : RenderState :=
  let pending :=
    if isHighRes && s.pendingRenders.contains key then
      s.pendingRenders.filter (fun k => k ≠ key)
    else s.pendingRenders
  let s := { s with pendingRenders := pending }
  let currentKey : RenderKey := (pageIndex, round3 s.zoom)
  if key ≠ currentKey then s
  else if image.isNull then s
  else
    if isHighRes then
      let rc := odMoveToEnd (odSet s.renderCache key image.data) key
      let lrc := if odContains s.lowResCache key then odDel s.lowResCache key
                 else s.lowResCache
      { s with renderCache := enforceCap 30 rc, lowResCache := lrc }
    else
      let lrc := odSet s.lowResCache key image.data
      { s with lowResCache := enforceCap 150 lrc }

/-- Result of `PDFViewWidget._get_page_pixmap`: an exact cached pixmap, a
scaled low-res preview, a scaled fallback from another zoom level, or
nothing. -/
inductive PixResult where
  | exact (pix : ℕ)
  | scaledLowRes (pix : ℕ)
  | scaledFallback (pix : ℕ)
deriving DecidableEq

/-- `PDFViewWidget._get_page_pixmap(page_index, ...)` (cache effects):
on an exact high-res hit the entry is touched (`move_to_end`, LRU access
update); otherwise a background render is scheduled (pending set) and a
low-res preview or — only while zooming — a scaled fallback is returned. -/
def getPagePixmap (s : RenderState) (pageIndex : ℤ) : Option PixResult × RenderState :=
  let key : RenderKey := (pageIndex, round3 s.zoom)
  if odContains s.renderCache key then
    ((odLookup s.renderCache key).map .exact,
     { s with renderCache := odMoveToEnd s.renderCache key })
  else
    let s1 := if s.pendingRenders.contains key then s
              else { s with pendingRenders := s.pendingRenders ++ [key] }
    if odContains s1.lowResCache key then
      ((odLookup s1.lowResCache key).map .scaledLowRes, s1)
    else if s1.isZooming then
      let candidates := s1.renderCache.filter (fun p => p.1.1 = pageIndex)
      match candidates.getLast? with
      | some p => (some (.scaledFallback p.2), s1)
      | none => (none, s1)
    else (none, s1)

/-- `PDFViewWidget.invalidate_all_pages()`: as written in the source it
clears only `self._render_cache` and calls `update()` — the low-res tier
is left untouched. -/
def invalidateAllPages (s : RenderState) : RenderState :=
  { s with renderCache := [] }

/-- `PDFViewWidget._invalidate_page(page_index)`: removes entries for the
page from both tiers. -/
def invalidatePage (s : RenderState) (pageIndex : ℤ) : RenderState :=
  { s with
    renderCache := s.renderCache.filter (fun p => p.1.1 ≠ pageIndex),
    lowResCache := s.lowResCache.filter (fun p => p.1.1 ≠ pageIndex) }

/-! ## Zoom controller (`set_zoom`, `wheelEvent`, `_lerp_zoom`, `_on_zoom_finished`) -/

/-- The three zoom scalars of `PDFViewWidget`: committed `_zoom`,
animated `_visual_zoom`, and `_zoom_target`. -/
structure ZoomState where
  zoom : ℚ
  visualZoom : ℚ
  zoomTarget : ℚ
deriving DecidableEq

/-- `PDFViewWidget.set_zoom(z)`: clamp to `[0.1, 8.0]`, ignore changes
below `0.001`, otherwise set all three zoom scalars. -/
def setZoom (s : ZoomState) (z : ℚ) : ZoomState :=
  let z := max (1/10) (min z 8)
  if |z - s.zoom| < 1/1000 then s
  else { zoom := z, visualZoom := z, zoomTarget := z }

/-- The zoom factor computed in `wheelEvent` from the event deltas:
`1 + pixelDelta.y * 0.004` for a precision touchpad, else
`1 + (angleDelta.y / 120) * 0.07` for a wheel tick. -/
def wheelFactor (pixelY angleY : ℤ) : ℚ :=
  if pixelY ≠ 0 then 1 + (pixelY : ℚ) * (4/1000)
  else 1 + ((angleY : ℚ) / 120) * (7/100)

/-- The zoom effect of `PDFViewWidget.wheelEvent` with the Control
modifier held: multiply `_zoom_target` by the factor and clamp it to
`[0.1, 8.0]` (gesture-origin bookkeeping does not touch the zooms). -/
def wheelZoom (s : ZoomState) (pixelY angleY : ℤ) : ZoomState :=
  { s with zoomTarget := max (1/10) (min (s.zoomTarget * wheelFactor pixelY angleY) 8) }

/-- `PDFViewWidget._lerp_zoom`: one 60 fps tick moving `_visual_zoom`
toward `_zoom_target`; snaps when within `0.0005`, else advances by a
`0.22` fraction of the remaining difference. -/
def lerpZoom (s : ZoomState) : ZoomState :=
  let diff := s.zoomTarget - s.visualZoom
  if |diff| < 5/10000 then { s with visualZoom := s.zoomTarget }
  else { s with visualZoom := s.visualZoom + diff * (22/100) }

/-- `PDFViewWidget._on_zoom_finished` (debounce commit): when the target
differs from the committed zoom by more than `0.001`, commit
`round(target, 3)` into `_zoom` and `_visual_zoom` (the scroll-bar
compensation in the source touches no zoom field). -/
def onZoomFinished (s : ZoomState) : ZoomState :=
  if 1/1000 < |s.zoomTarget - s.zoom| then
    let z := round3 s.zoomTarget
    { s with zoom := z, visualZoom := z }
  else s

/-- A zoom-related input event: a `set_zoom` call, a modifier-held wheel
event, an interpolation tick, or a debounce commit. -/
inductive ZoomEvent where
  | set (z : ℚ)
  | wheel (pixelY angleY : ℤ)
  | lerpTick
  | commit
deriving DecidableEq

/-- One step of the zoom controller. -/
def zoomStep (s : ZoomState) : ZoomEvent → ZoomState
  | .set z => setZoom s z
  | .wheel p a => wheelZoom s p a
  | .lerpTick => lerpZoom s
  | .commit => onZoomFinished s

/-- Run a sequence of zoom events. -/
def zoomRun (s : ZoomState) (evs : List ZoomEvent) : ZoomState :=
  evs.foldl zoomStep s

/-- All three zoom scalars lie in `[0.1, 8.0]`. -/
def ZoomInv (s : ZoomState) : Prop :=
  1/10 ≤ s.zoom ∧ s.zoom ≤ 8 ∧
  1/10 ≤ s.visualZoom ∧ s.visualZoom ≤ 8 ∧
  1/10 ≤ s.zoomTarget ∧ s.zoomTarget ≤ 8

instance (s : ZoomState) : Decidable (ZoomInv s) := by
  unfold ZoomInv; infer_instance

/-! ## Layout engine (`_recalculate_layout`, `page_at_y`) -/

/-- The fixed gap between stacked pages (`PAGE_GAP = 16`). -/
def PAGE_GAP : ℤ := 16

/-- The accumulation loop of `_recalculate_layout`: starting from the
running offset `y`, each page contributes its rendered height
`int(rect.height * zoom)` plus the page gap. -/
def layoutOffsetsGo (zoom : ℚ) (y : ℤ) : List ℚ → List ℤ
  | [] => []
  | h :: rest => y :: layoutOffsetsGo zoom (y + pyInt (h * zoom) + PAGE_GAP) rest

/-- `PDFViewWidget._recalculate_layout` restricted to `_page_offsets`:
offsets start at `PAGE_GAP` and accumulate rendered heights. -/
def recalcPageOffsets (pageHeightsPts : List ℚ) (zoom : ℚ) : List ℤ :=
  layoutOffsetsGo zoom PAGE_GAP pageHeightsPts

/-- Python `bisect.bisect_right(a, x)` for a sorted list: the insertion
point after all entries `≤ x`, i.e. the number of entries `≤ x`. -/
def bisectRight (l : List ℤ) (x : ℤ) : ℕ :=
  l.countP (fun a => a ≤ x)

/-- `PDFViewWidget.page_at_y(y)`: `bisect_right(self._page_offsets, y) - 1`
clamped to a valid page index (0 on an empty layout). -/
def pageAtY (offsets : List ℤ) (y : ℤ) : ℤ :=
  if offsets.isEmpty then 0
  else max 0 (min ((bisectRight offsets y : ℤ) - 1) ((offsets.length : ℤ) - 1))

/-! ## Character-level text wrapping (`_char_wrap_text`, `_fitz_char_wrap_text`)

Python strings are embedded as `List Char`; the font-metric oracles
(`fitz.get_text_length` with its Qt fallback, resp. `QFontMetricsF`)
become a width function `Char → ℚ` fixed by fontname/fontsize. -/

/-- Python `text.split("\n")`. -/
def splitOnNL : List Char → List (List Char)
  | [] => [[]]
  | c :: rest =>
    if c = '\n' then [] :: splitOnNL rest
    else
      match splitOnNL rest with
      | [] => [[c]]
      | l :: ls => (c :: l) :: ls

/-- Python `"\n".join(lines)`. -/
def intercalateNL : List (List Char) → List Char
  | [] => []
  | [l] => l
  | l :: ls => l ++ '\n' :: intercalateNL ls

/-- The shared greedy accumulation loop of both wrap functions: emit the
current chunk and restart whenever the running width of the current
chunk plus the next character's width exceeds the limit (and the chunk
is nonempty); the trailing `if cur:` append closes the last chunk. -/
def wrapGo (w : Char → ℚ) (limit : ℚ) (cur : List Char) (curW : ℚ) :
    List Char → List (List Char)
  | [] => if cur = [] then [] else [cur]
  | c :: rest =>
    if limit < curW + w c ∧ cur ≠ [] then cur :: wrapGo w limit [c] (w c) rest
    else wrapGo w limit (cur ++ [c]) (curW + w c) rest

/-- Per-line body of the wrap loop: an empty line is kept as an empty
output line, a nonempty line is chunked greedily. -/
def wrapLine (w : Char → ℚ) (limit : ℚ) (line : List Char) : List (List Char) :=
  if line = [] then [[]] else wrapGo w limit [] 0 line

/-- `_char_wrap_text(text, max_width, fontsize, fontname)`: Qt-metrics
character wrap; the break test is `cur_w + ch_w > max_width + 0.1`. -/
def charWrapText (w : Char → ℚ) (text : List Char) (maxWidth fontsize : ℚ) : List Char :=
  if text = [] ∨ maxWidth ≤ 0 ∨ fontsize ≤ 0 then text
  else intercalateNL ((splitOnNL text).flatMap (wrapLine w (maxWidth + 1/10)))

/-- The effective width used by `_fitz_char_wrap_text`: `max_width - 4.0`
for FreeText internal padding, falling back to `max_width` when that is
non-positive. -/
def fitzEffectiveWidth (maxWidth : ℚ) : ℚ :=
  if maxWidth - 4 ≤ 0 then maxWidth else maxWidth - 4

/-- `_fitz_char_wrap_text(text, max_width, fontsize, fontname)`:
fitz-metrics character wrap against the effective width. -/
def fitzCharWrapText (w : Char → ℚ) (text : List Char) (maxWidth fontsize : ℚ) : List Char :=
  if text = [] ∨ maxWidth ≤ 0 ∨ fontsize ≤ 0 then text
  else intercalateNL ((splitOnNL text).flatMap (wrapLine w (fitzEffectiveWidth maxWidth)))

/-- Characters of a line with all newlines removed (used to state that
wrapping only inserts line breaks). -/
def removeNL (l : List Char) : List Char := l.filter (fun c => c ≠ '\n')

/-- Total measured width of a chunk of characters. -/
def sumW (w : Char → ℚ) (l : List Char) : ℚ := (l.map w).sum

/-- Invariant of a chunk emitted by the greedy wrap loop: every prefix of
at least two characters fits within the width limit (a lone first
character may exceed it, since the loop never breaks an empty chunk). -/
def GoodChunk (w : Char → ℚ) (lim : ℚ) (chunk : List Char) : Prop :=
  ∀ j : ℕ, 0 < j → j + 1 ≤ chunk.length → sumW w (chunk.take (j + 1)) ≤ lim

/-! ## Line-text reconstruction (`_extract_line_text_from_chars`) -/

/-- One `rawdict` character entry: `ch.get("c", "")` and
`ch.get("bbox")` as `(x0, y0, x1, y1)`. -/
structure RawChar where
  c : List Char
  bbox : Option (ℚ × ℚ × ℚ × ℚ)
deriving DecidableEq

/-- One `rawdict` span: font size, span text (used only by the
no-chars fallback), and the character list. -/
structure RawSpan where
  size : ℚ
  text : List Char
  chars : List RawChar
deriving DecidableEq

/-- The flattened `all_chars` list: every character of every span paired
with its span's font size. -/
def allChars (spans : List RawSpan) : List (RawChar × ℚ) :=
  spans.flatMap (fun s => s.chars.map (fun ch => (ch, s.size)))

/-- The widths collected for the average: `cb[2] - cb[0]` of every char
that has a bbox, kept only when positive. -/
def glyphWidths (spans : List RawSpan) : List ℚ :=
  (allChars spans).filterMap (fun p =>
    match p.1.bbox with
    | some (x0, _, x1, _) => if 0 < x1 - x0 then some (x1 - x0) else none
    | none => none)

/-- The line's average glyph width: mean of the collected widths, with
the source's `5.0` default when no widths exist. -/
def avgCharWidth (spans : List RawSpan) : ℚ :=
  let ws := glyphWidths spans
  if ws = [] then 5 else ws.sum / (ws.length : ℚ)

/-- The space-insertion threshold: `avg_char_w * 0.35`. -/
def spaceThreshold (spans : List RawSpan) : ℚ :=
  avgCharWidth spans * (35/100)

/-- The character walk of `_extract_line_text_from_chars`: characters
without a bbox or with empty text are skipped (without updating
`prev_x1`); otherwise a single space is emitted when the gap from the
previous glyph's trailing edge exceeds the threshold. -/
def extractGo (threshold : ℚ) (prevX1 : Option ℚ) : List (RawChar × ℚ) → List Char
  | [] => []
  | (ch, _) :: rest =>
    match ch.bbox with
    | none => extractGo threshold prevX1 rest
    | some (x0, _, x1, _) =>
      if ch.c = [] then extractGo threshold prevX1 rest
      else
        (match prevX1 with
         | some p => if threshold < x0 - p then [' '] else []
         | none => []) ++ ch.c ++ extractGo threshold (some x1) rest

/-- `PDFViewWidget._extract_line_text_from_chars(spans)`: flatten the
spans, fall back to concatenated span texts when no characters exist,
otherwise run the gap walk and strip the result. -/
def extractLineTextFromChars (spans : List RawSpan) : List Char :=
  if spans = [] then []
  else if allChars spans = [] then spans.flatMap (fun s => s.text)
  else pyStrip (extractGo (spaceThreshold spans) none (allChars spans))

/-- Modelled from the spec: the claim's description of space
reconstruction — between every pair of consecutive glyphs exactly one
space is inserted when the horizontal gap (next glyph's leading edge
minus previous glyph's trailing edge) exceeds the threshold, and none
otherwise.  Glyphs are given as `(text, x0, x1)` triples. -/
def specInterleave (threshold : ℚ) : List (List Char × ℚ × ℚ) → List Char
  | [] => []
  | [(c, _, _)] => c
  | (c, _, x1) :: (c2, y0, y1) :: rest =>
    c ++ (if threshold < y0 - x1 then [' '] else []) ++
      specInterleave threshold ((c2, y0, y1) :: rest)

/-- Projection of a flattened char to its `(text, x0, x1)` glyph data
(defaults are irrelevant under the well-formedness hypotheses). -/
def glyphProj (p : RawChar × ℚ) : List Char × ℚ × ℚ :=
  match p.1.bbox with
  | some (x0, _, x1, _) => (p.1.c, x0, x1)
  | none => (p.1.c, 0, 0)

/-- A glyph suitable for the space-reconstruction claim: it has a bbox
of positive width and nonempty, non-whitespace text. -/
def goodGlyph (ch : RawChar) : Bool :=
  match ch.bbox with
  | some (x0, _, x1, _) => decide (x0 < x1) && !ch.c.isEmpty && ch.c.all (fun a => !pyIsSpace a)
  | none => false

/-- A concrete two-glyph line ("H" at x 0–5, "i" at x 10–14) used to
exercise the space reconstruction on a known input. -/
def sampleHiSpans : List RawSpan :=
  [{ size := 12, text := [],
     chars := [{ c := ['H'], bbox := some (0, 0, 5, 10) },
               { c := ['i'], bbox := some (10, 0, 14, 10) }] }]

/-! ## Stamp resize (`mouseMoveEvent`, aspect-preserving branch) -/

/-- The stamp-resize branch of `PDFViewWidget.mouseMoveEvent`: given the
original rectangle `(ox0, oy0, ox1, oy1)`, the resize anchor `(ax, ay)`
(the corner opposite the dragged handle), the current drag position
`(px, py)` in page coordinates and the zoom, compute the new stamp
rectangle; when the original width or height is not positive the source
leaves the rectangle unchanged. -/
def stampResizeRect (ox0 oy0 ox1 oy1 ax ay px py zoom : ℚ) : ℚ × ℚ × ℚ × ℚ :=
  let origW := ox1 - ox0
  let origH := oy1 - oy0
  if 0 < origW ∧ 0 < origH then
    let aspect := origW / origH
    let dx := |px - ax|
    let dy := |py - ay|
    let wh : ℚ × ℚ :=
      if dy < dx / aspect then
        let nw := max dx (20 / zoom)
        (nw, nw / aspect)
      else
        let nh := max dy (20 / zoom)
        (nh * aspect, nh)
    let nx0 := if px < ax then ax - wh.1 else ax
    let ny0 := if py < ay then ay - wh.2 else ay
    (nx0, ny0, nx0 + wh.1, ny0 + wh.2)
  else (ox0, oy0, ox1, oy1)

/-! ## Interaction modes and the native text-edit commit

The widget's mode state machine (`MODE_NORMAL` / `MODE_TEXT_PLACEMENT` /
`MODE_CROP` / `MODE_TEXT_EDIT`) together with `_commit_text_edit` and the
three mode-entry methods.  The PDF document is modelled as a list of
pages, each a list of drawing operations appended by edits; external
collaborators (background-color sampling, font resolution) are taken as
parameters in an environment record. -/

/-- Interaction mode of the widget. -/
inductive Mode where
  | normal
  | textPlacement
  | crop
  | textEdit
deriving DecidableEq

/-- A drawing operation recorded on a page by `_commit_text_edit`:
the background-color cover rectangle (`page.draw_rect`) and the
replacement text insertion (`page.insert_text`). -/
inductive PageOp where
  | drawRect (rect : ℚ × ℚ × ℚ × ℚ) (fill : ℚ × ℚ × ℚ)
  | insertText (point : ℚ × ℚ) (text : List Char) (fontsize : ℚ)
      (color : ℚ × ℚ × ℚ) (fontKw : ℕ)
deriving DecidableEq

/-- A page of the modelled document: the operations drawn onto it. -/
abbrev PageM : Type := List PageOp

/-- One cached text-edit line record (`_get_text_lines_for_page`):
reconstructed text, bbox `(x0, y0, x1, y1)`, font name, size, packed RGB
color int, baseline origin, and first visible glyph x. -/
structure LineInfo where
  text : List Char
  bbox : ℚ × ℚ × ℚ × ℚ
  font : List Char
  size : ℚ
  color : ℕ
  origin : ℚ × ℚ
  firstCharX : Option ℚ
deriving DecidableEq

/-- External collaborators used by `_commit_text_edit`:
`_sample_background_color(page, bbox)` and the embedded/system/built-in
font resolution chain (`_extract_embedded_font` / `_map_to_fitz_font`),
abstracted as oracles. -/
structure EditEnv where
  sampleBg : ℕ → ℚ × ℚ × ℚ × ℚ → ℚ × ℚ × ℚ
  resolveFont : List Char → List Char → ℕ

/-- The mode-relevant state of `PDFViewWidget`. -/
structure Widget where
  mode : Mode
  pendingTextConfig : Option ℕ
  cropStartPos : Option (ℚ × ℚ)
  cropCurrentPos : Option (ℚ × ℚ)
  cropCallback : Option ℕ
  textEditWidget : Option (List Char)
  textEditLineInfo : Option LineInfo
  textEditPage : ℤ
  textEditLinesCache : List ℕ
  textEditHoverLine : Option LineInfo
  textEditHoverPage : ℤ
  selectedAnnot : Option ℕ
  selectedPage : ℤ
  doc : Option (List PageM)
  docBytesSnapshot : Option (List PageM)
  renderCache : List (RenderKey × ℕ)
  lowResCache : List (RenderKey × ℕ)
deriving DecidableEq

/-- The two page operations appended by a successful `_commit_text_edit`:
cover the old bbox (expanded by 1pt) with the sampled background color,
then insert the new text at the recorded baseline (first-glyph x if
known, else the span origin's x). -/
def commitOps (env : EditEnv) (info : LineInfo) (newText : List Char)
    (pageIndex : ℕ) : List PageOp :=
  let (x0, y0, x1, y1) := info.bbox
  let r : ℚ := ((info.color >>> 16) &&& 0xFF : ℕ) / 255
  let g : ℚ := ((info.color >>> 8) &&& 0xFF : ℕ) / 255
  let b : ℚ := ((info.color &&& 0xFF : ℕ)) / 255
  let cover := (x0 - 1, y0 - 1, x1 + 1, y1 + 1)
  let bg := env.sampleBg pageIndex info.bbox
  let fontKw := env.resolveFont info.font newText
  let insertX := info.firstCharX.getD info.origin.1
  [.drawRect cover bg,
   .insertText (insertX, info.origin.2) newText info.size (r, g, b) fontKw]

/-- `PDFViewWidget._commit_text_edit`: clear the edit state, discard the
edit when the text is unchanged or blank or no document page exists,
otherwise append the cover+insert operations to the page, refresh the
bytes snapshot, and drop the page from the line cache and both render
cache tiers. -/
def commitTextEdit (env : EditEnv) (w : Widget) : Widget :=
  match w.textEditWidget with
  | none => w
  | some newText =>
    let lineInfo := w.textEditLineInfo
    let pageIndex := w.textEditPage
    let w := { w with textEditWidget := none, textEditLineInfo := none, textEditPage := -1 }
    match lineInfo with
    | none => w
    | some info =>
      if newText = info.text ∨ pyStrip newText = [] then w
      else
        match w.doc with
        | none => w
        | some pages =>
          if 0 ≤ pageIndex ∧ pageIndex < (pages.length : ℤ) then
            let p := pageIndex.toNat
            let newPages := pages.set p ((pages.getD p []) ++ commitOps env info newText p)
            { w with
              doc := some newPages,
              docBytesSnapshot := some newPages,
              textEditLinesCache := w.textEditLinesCache.filter (fun q => q ≠ p),
              renderCache := w.renderCache.filter (fun e => e.1.1 ≠ (p : ℤ)),
              lowResCache := w.lowResCache.filter (fun e => e.1.1 ≠ (p : ℤ)) }
          else w

/-- `PDFViewWidget._exit_current_mode`: run the active mode's cleanup
(committing a pending native text edit, clearing placement config, or
clearing crop state) and return to Normal. -/
def exitCurrentMode (env : EditEnv) (w : Widget) : Widget :=
  if w.mode = .normal then w
  else
    let w1 :=
      match w.mode with
      | .textEdit =>
        let w' := if w.textEditWidget.isSome then commitTextEdit env w else w
        { w' with textEditLinesCache := [], textEditHoverLine := none, textEditHoverPage := -1 }
      | .textPlacement => { w with pendingTextConfig := none }
      | .crop => { w with cropStartPos := none, cropCurrentPos := none, cropCallback := none }
      | .normal => w
    { w1 with mode := .normal }

/-- `PDFViewWidget.enter_text_placement_mode(config)`. -/
def enterTextPlacementMode (env : EditEnv) (config : ℕ) (w : Widget) : Widget :=
  let w1 := exitCurrentMode env w
  { w1 with selectedAnnot := none, selectedPage := -1,
            pendingTextConfig := some config, mode := .textPlacement }

/-- `PDFViewWidget.enter_crop_mode(callback)`. -/
def enterCropMode (env : EditEnv) (callback : ℕ) (w : Widget) : Widget :=
  let w1 := exitCurrentMode env w
  { w1 with selectedAnnot := none, selectedPage := -1,
            mode := .crop, cropCallback := some callback }

/-- `PDFViewWidget.enter_text_edit_mode()`. -/
def enterTextEditMode (env : EditEnv) (w : Widget) : Widget :=
  let w1 := exitCurrentMode env w
  { w1 with selectedAnnot := none, selectedPage := -1,
            mode := .textEdit, textEditLinesCache := [] }

/-! ## Theorems -/

/-- The computable `Rat.floor` used in the embedding agrees with the
mathematical floor. -/
theorem ratFloor_eq (q : ℚ) : q.floor = ⌊q⌋ := by
  rw [Rat.floor_def', ← Rat.floor_def]

/-- C1: Stale render results are never cached — when the delivered key no
longer matches `(page_index, round(current_zoom, 3))`,
`_on_render_finished` leaves both the high-res and the low-res cache
tier unchanged. -/
theorem stale_render_never_cached (s : RenderState) (image : QImageM)
    (isHighRes : Bool) (pageIndex : ℤ) (key : RenderKey)
    (h : key ≠ (pageIndex, round3 s.zoom)) :
    (onRenderFinished s image isHighRes pageIndex key).renderCache = s.renderCache ∧
    (onRenderFinished s image isHighRes pageIndex key).lowResCache = s.lowResCache := by
  unfold onRenderFinished
  simp [h]

/-- Witness for C1 at a concrete stale delivery: zoom is `1.0` but the
key was scheduled for zoom `2.0`. -/
theorem stale_render_never_cached_witness :
    (((3 : ℤ), (2 : ℚ)) : RenderKey) ≠ ((3 : ℤ), round3 (1 : ℚ)) ∧
    ((onRenderFinished
        { renderCache := [(((3 : ℤ), (1 : ℚ)), 9)], lowResCache := [],
          pendingRenders := [((3 : ℤ), (2 : ℚ))], zoom := 1, isZooming := false }
        { data := 5, isNull := false } true 3 ((3 : ℤ), (2 : ℚ))).renderCache
      = [(((3 : ℤ), (1 : ℚ)), 9)] ∧
     (onRenderFinished
        { renderCache := [(((3 : ℤ), (1 : ℚ)), 9)], lowResCache := [],
          pendingRenders := [((3 : ℤ), (2 : ℚ))], zoom := 1, isZooming := false }
        { data := 5, isNull := false } true 3 ((3 : ℤ), (2 : ℚ))).lowResCache = []) :=
  ⟨by norm_num [round3, pyRound, ratFloor_eq, Prod.ext_iff],
   stale_render_never_cached _ _ _ _ _
     (by norm_num [round3, pyRound, ratFloor_eq, Prod.ext_iff])⟩

/-- The eviction loop removes exactly the oldest entries: it is the
`drop` of the over-capacity head segment. -/
theorem enforceCap_eq_drop {K V : Type} (cap : ℕ) :
    ∀ l : List (K × V), enforceCap cap l = l.drop (l.length - cap) := by
  intro l
  induction l with
  | nil => simp [enforceCap]
  | cons x rest ih =>
    rw [enforceCap]
    by_cases h : cap < (x :: rest).length
    · rw [if_pos h]
      show enforceCap cap rest = (x :: rest).drop ((x :: rest).length - cap)
      rw [ih]
      have hlen : (x :: rest).length - cap = (rest.length - cap) + 1 := by
        simp only [List.length_cons] at h ⊢
        omega
      rw [hlen, List.drop_succ_cons]
    · rw [if_neg h]
      have hlen : (x :: rest).length - cap = 0 := by
        simp only [List.length_cons] at h ⊢
        omega
      rw [hlen, List.drop_zero]

/-- After the eviction loop a tier never exceeds its capacity. -/
theorem enforceCap_length_le {K V : Type} (cap : ℕ) (l : List (K × V)) :
    (enforceCap cap l).length ≤ cap := by
  rw [enforceCap_eq_drop, List.length_drop]
  omega

/-- Banker's rounding never goes below the floor. -/
theorem ratFloor_le_pyRound (q : ℚ) : q.floor ≤ pyRound q := by
  simp only [pyRound]
  split_ifs <;> omega

/-- Banker's rounding never goes above the ceiling. -/
theorem pyRound_le_ceil (q : ℚ) : pyRound q ≤ ⌈q⌉ := by
  have hfc : ⌊q⌋ ≤ ⌈q⌉ := Int.floor_le_ceil q
  simp only [pyRound, ratFloor_eq]
  split_ifs with h1 h2 h3
  · exact hfc
  · have hlt : (⌊q⌋ : ℚ) < q := by linarith
    have h4 : ⌊q⌋ < ⌈q⌉ := Int.lt_ceil.mpr hlt
    omega
  · exact hfc
  · have hlt : (⌊q⌋ : ℚ) < q := by linarith
    have h4 : ⌊q⌋ < ⌈q⌉ := Int.lt_ceil.mpr hlt
    omega

/-- Rounding a zoom already inside `[0.1, 8.0]` to three decimals stays
inside `[0.1, 8.0]`. -/
theorem round3_clamped (t : ℚ) (h1 : 1/10 ≤ t) (h2 : t ≤ 8) :
    1/10 ≤ round3 t ∧ round3 t ≤ 8 := by
  unfold round3
  have hlo : (100 : ℤ) ≤ (t * 1000).floor := by
    rw [ratFloor_eq]
    exact Int.le_floor.mpr (by push_cast; linarith)
  have hhi : (⌈t * 1000⌉ : ℤ) ≤ 8000 := Int.ceil_le.mpr (by push_cast; linarith)
  have hl : (100 : ℤ) ≤ pyRound (t * 1000) := le_trans hlo (ratFloor_le_pyRound _)
  have hr : pyRound (t * 1000) ≤ 8000 := le_trans (pyRound_le_ceil _) hhi
  have hl' : (100 : ℚ) ≤ (pyRound (t * 1000) : ℚ) := by exact_mod_cast hl
  have hr' : ((pyRound (t * 1000) : ℚ)) ≤ 8000 := by exact_mod_cast hr
  constructor <;> linarith

/-- A single zoom-controller step preserves the `[0.1, 8.0]` bounds on
all three zoom scalars. -/
theorem zoomStep_inv (s : ZoomState) (e : ZoomEvent) (h : ZoomInv s) :
    ZoomInv (zoomStep s e) := by
  obtain ⟨h1, h2, h3, h4, h5, h6⟩ := h
  cases e with
  | set z =>
    simp only [zoomStep, setZoom]
    have hzl : 1/10 ≤ max (1/10) (min z 8) := le_max_left _ _
    have hzr : max (1/10) (min z 8) ≤ 8 :=
      max_le (by norm_num) (min_le_right _ _)
    split_ifs
    · exact ⟨h1, h2, h3, h4, h5, h6⟩
    · exact ⟨hzl, hzr, hzl, hzr, hzl, hzr⟩
  | wheel p a =>
    simp only [zoomStep, wheelZoom]
    refine ⟨h1, h2, h3, h4, le_max_left _ _, max_le (by norm_num) (min_le_right _ _)⟩
  | lerpTick =>
    simp only [zoomStep, lerpZoom]
    split_ifs
    · exact ⟨h1, h2, h5, h6, h5, h6⟩
    · exact ⟨h1, h2, by linarith, by linarith, h5, h6⟩
  | commit =>
    simp only [zoomStep, onZoomFinished]
    split_ifs
    · obtain ⟨hc1, hc2⟩ := round3_clamped s.zoomTarget h5 h6
      exact ⟨hc1, hc2, hc1, hc2, h5, h6⟩
    · exact ⟨h1, h2, h3, h4, h5, h6⟩

/-- C6: Zoom clamp — for every sequence of `set_zoom` calls,
modifier-held wheel events, interpolation ticks and debounce commits,
the committed, target and visual zoom all stay within `[0.1, 8.0]`. -/
theorem zoom_clamp_invariant (s : ZoomState) (evs : List ZoomEvent)
    (h : ZoomInv s) : ZoomInv (zoomRun s evs) := by
  induction evs generalizing s with
  | nil => exact h
  | cons e evs ih => exact ih (zoomStep s e) (zoomStep_inv s e h)

/-- Witness for C6: from the initial state `(1, 1, 1)`, a wheel tick in,
a lerp tick, a commit, an out-of-range `set_zoom(50)` request and a
violent wheel tick out all stay within the bounds. -/
theorem zoom_clamp_invariant_witness :
    ZoomInv { zoom := 1, visualZoom := 1, zoomTarget := 1 } ∧
    ZoomInv (zoomRun { zoom := 1, visualZoom := 1, zoomTarget := 1 }
      [.wheel 0 120, .lerpTick, .commit, .set 50, .wheel 0 (-8000)]) :=
  ⟨by norm_num [ZoomInv],
   zoom_clamp_invariant _ _ (by norm_num [ZoomInv])⟩

/-- C2: Cache capacity and LRU eviction — after any render completion
the high-res cache holds at most 30 entries and the low-res cache at
most 150; the eviction loop removes exactly the oldest (least recently
used) head entries, and an exact-cache access moves the accessed entry
to the most-recent position while preserving the cache contents. -/
theorem render_cache_capacity_lru (s : RenderState) (image : QImageM)
    (isHighRes : Bool) (pageIndex : ℤ) (key : RenderKey)
    (h1 : s.renderCache.length ≤ 30) (h2 : s.lowResCache.length ≤ 150) :
    ((onRenderFinished s image isHighRes pageIndex key).renderCache.length ≤ 30 ∧
     (onRenderFinished s image isHighRes pageIndex key).lowResCache.length ≤ 150) ∧
    (∀ (cap : ℕ) (l : List (RenderKey × ℕ)),
      enforceCap cap l = l.drop (l.length - cap)) ∧
    (odContains s.renderCache (pageIndex, round3 s.zoom) = true →
      (∃ v, ((getPagePixmap s pageIndex).2.renderCache).getLast?
          = some ((pageIndex, round3 s.zoom), v)) ∧
      ((getPagePixmap s pageIndex).2.renderCache).Perm s.renderCache) := by
  refine ⟨?_, fun cap l => enforceCap_eq_drop cap l, ?_⟩
  · simp only [onRenderFinished]
    split_ifs <;> refine ⟨?_, ?_⟩ <;>
      first
        | exact h1
        | exact h2
        | exact enforceCap_length_le _ _
        | exact le_trans (List.length_filter_le _ _) h2
  · intro hc
    simp only [getPagePixmap]
    rw [if_pos hc]
    have hex : ∃ p ∈ s.renderCache, p.1 = (pageIndex, round3 s.zoom) := by
      have := List.any_eq_true.mp hc
      obtain ⟨p, hp, hpk⟩ := this
      exact ⟨p, hp, of_decide_eq_true hpk⟩
    obtain ⟨p, hp, hpk⟩ := hex
    have hpB : p ∈ s.renderCache.filter
        (fun q => q.1 = (pageIndex, round3 s.zoom)) :=
      List.mem_filter.mpr ⟨hp, decide_eq_true hpk⟩
    have hBne : s.renderCache.filter
        (fun q => q.1 = (pageIndex, round3 s.zoom)) ≠ [] :=
      List.ne_nil_of_mem hpB
    constructor
    · simp only [odMoveToEnd]
      rw [List.getLast?_append_of_ne_nil _ hBne]
      obtain ⟨q, hq⟩ := Option.isSome_iff_exists.mp (List.getLast?_isSome.mpr hBne)
      have hqB := List.mem_of_mem_getLast? hq
      have hqk : q.1 = (pageIndex, round3 s.zoom) :=
        of_decide_eq_true (List.mem_filter.mp hqB).2
      refine ⟨q.2, ?_⟩
      rw [hq, ← hqk]
    · simp only [odMoveToEnd]
      have hfun : (fun (q : RenderKey × ℕ) => decide (q.1 = (pageIndex, round3 s.zoom)))
          = (fun q => !decide (q.1 ≠ (pageIndex, round3 s.zoom))) := by
        funext a
        simp [decide_not]
      rw [hfun]
      exact List.filter_append_perm _ s.renderCache

/-- Witness for C2 at a concrete completion: a high-res delivery for the
current key into a one-entry cache. -/
theorem render_cache_capacity_lru_witness :
    ([(((0 : ℤ), (1 : ℚ)), 4)] : List (RenderKey × ℕ)).length ≤ 30 ∧
    ([(((0 : ℤ), (1 : ℚ)), 8)] : List (RenderKey × ℕ)).length ≤ 150 ∧
    (((onRenderFinished
        { renderCache := [(((0 : ℤ), (1 : ℚ)), 4)],
          lowResCache := [(((0 : ℤ), (1 : ℚ)), 8)],
          pendingRenders := [], zoom := 1, isZooming := false }
        { data := 5, isNull := false } true 0 ((0 : ℤ), (1 : ℚ))).renderCache.length ≤ 30 ∧
      (onRenderFinished
        { renderCache := [(((0 : ℤ), (1 : ℚ)), 4)],
          lowResCache := [(((0 : ℤ), (1 : ℚ)), 8)],
          pendingRenders := [], zoom := 1, isZooming := false }
        { data := 5, isNull := false } true 0 ((0 : ℤ), (1 : ℚ))).lowResCache.length ≤ 150) ∧
     (∀ (cap : ℕ) (l : List (RenderKey × ℕ)),
       enforceCap cap l = l.drop (l.length - cap)) ∧
     (odContains ([(((0 : ℤ), (1 : ℚ)), 4)] : List (RenderKey × ℕ))
         ((0 : ℤ), round3 (1 : ℚ)) = true →
       (∃ v, ((getPagePixmap
           { renderCache := [(((0 : ℤ), (1 : ℚ)), 4)],
             lowResCache := [(((0 : ℤ), (1 : ℚ)), 8)],
             pendingRenders := [], zoom := 1, isZooming := false }
           0).2.renderCache).getLast? = some (((0 : ℤ), round3 (1 : ℚ)), v)) ∧
       ((getPagePixmap
           { renderCache := [(((0 : ℤ), (1 : ℚ)), 4)],
             lowResCache := [(((0 : ℤ), (1 : ℚ)), 8)],
             pendingRenders := [], zoom := 1, isZooming := false }
           0).2.renderCache).Perm [(((0 : ℤ), (1 : ℚ)), 4)])) :=
  ⟨by norm_num, by norm_num,
   render_cache_capacity_lru _ _ _ _ _ (by norm_num) (by norm_num)⟩

/-- C3: `invalidate_all_pages()` as implemented clears only the high-res
`_render_cache`; a populated `_low_res_cache` survives the call, so the
claim that both tiers end up empty fails on the code. -/
theorem invalidate_all_pages_leaves_low_res_tier :
    (invalidateAllPages
      { renderCache := [(((0 : ℤ), (1 : ℚ)), 7)],
        lowResCache := [(((0 : ℤ), (1 : ℚ)), 5)],
        pendingRenders := [], zoom := 1, isZooming := false }).renderCache = [] ∧
    (invalidateAllPages
      { renderCache := [(((0 : ℤ), (1 : ℚ)), 7)],
        lowResCache := [(((0 : ℤ), (1 : ℚ)), 5)],
        pendingRenders := [], zoom := 1, isZooming := false }).lowResCache
      = [(((0 : ℤ), (1 : ℚ)), 5)] := by
  constructor <;> rfl

/-- Truncation toward zero of a nonnegative rational is nonnegative. -/
theorem pyInt_nonneg (q : ℚ) (h : 0 ≤ q) : 0 ≤ pyInt q := by
  simp only [pyInt, if_pos h, ratFloor_eq]
  exact Int.floor_nonneg.mpr h

/-- The layout loop produces one offset per page. -/
theorem layoutOffsetsGo_length (zoom : ℚ) (hs : List ℚ) :
    ∀ y, (layoutOffsetsGo zoom y hs).length = hs.length := by
  induction hs with
  | nil => intro y; rfl
  | cons a t ih => intro y; simp [layoutOffsetsGo, ih]

/-- Every offset produced by the layout loop is at least the starting
offset (page heights are nonnegative at nonnegative zoom). -/
theorem layoutOffsetsGo_ge (zoom : ℚ) (hz : 0 ≤ zoom) :
    ∀ (hs : List ℚ), (∀ h ∈ hs, 0 ≤ h) →
      ∀ y, ∀ v ∈ layoutOffsetsGo zoom y hs, y ≤ v := by
  intro hs
  induction hs with
  | nil => intro _ y v hv; simp [layoutOffsetsGo] at hv
  | cons a t ih =>
    intro hnn y v hv
    have ha : 0 ≤ a := hnn a (List.mem_cons_self a t)
    have hi : 0 ≤ pyInt (a * zoom) := pyInt_nonneg _ (mul_nonneg ha hz)
    simp only [layoutOffsetsGo, List.mem_cons] at hv
    rcases hv with rfl | hv
    · exact le_refl v
    · have := ih (fun h hm => hnn h (List.mem_cons_of_mem a hm))
        (y + pyInt (a * zoom) + PAGE_GAP) v hv
      simp only [PAGE_GAP] at this
      omega

/-- The offsets produced by the layout loop are strictly increasing. -/
theorem layoutOffsetsGo_sorted (zoom : ℚ) (hz : 0 ≤ zoom) :
    ∀ (hs : List ℚ), (∀ h ∈ hs, 0 ≤ h) →
      ∀ y, (layoutOffsetsGo zoom y hs).Pairwise (· < ·) := by
  intro hs
  induction hs with
  | nil => intro _ y; simp [layoutOffsetsGo]
  | cons a t ih =>
    intro hnn y
    have ha : 0 ≤ a := hnn a (List.mem_cons_self a t)
    have hi : 0 ≤ pyInt (a * zoom) := pyInt_nonneg _ (mul_nonneg ha hz)
    have htail : ∀ h ∈ t, 0 ≤ h := fun h hm => hnn h (List.mem_cons_of_mem a hm)
    simp only [layoutOffsetsGo, List.pairwise_cons]
    constructor
    · intro v hv
      have := layoutOffsetsGo_ge zoom hz t htail (y + pyInt (a * zoom) + PAGE_GAP) v hv
      simp only [PAGE_GAP] at this
      omega
    · exact ih htail _

/-- In a strictly increasing list, the number of entries `≤` the `i`-th
entry is exactly `i + 1` (the semantics of `bisect_right` at a stored
offset). -/
theorem sorted_countP_get (l : List ℤ) (hs : l.Pairwise (· < ·)) :
    ∀ (i : ℕ) (hi : i < l.length),
      l.countP (fun a => a ≤ l.get ⟨i, hi⟩) = i + 1 := by
  induction l with
  | nil => intro i hi; simp at hi
  | cons a t ih =>
    intro i hi
    have hhead : ∀ b ∈ t, a < b := fun b hb => (List.pairwise_cons.mp hs).1 b hb
    have htp : t.Pairwise (· < ·) := (List.pairwise_cons.mp hs).2
    cases i with
    | zero =>
      simp only [List.get, List.countP_cons, decide_eq_true_eq, le_refl, if_pos]
      have hz : t.countP (fun b => decide (b ≤ a)) = 0 := by
        rw [List.countP_eq_zero]
        intro b hb
        simp only [decide_eq_true_eq]
        exact not_le_of_lt (hhead b hb)
      simp [hz]
    | succ j =>
      have hj : j < t.length := Nat.lt_of_succ_lt_succ hi
      have hget : (a :: t).get ⟨j + 1, hi⟩ = t.get ⟨j, hj⟩ := rfl
      rw [hget, List.countP_cons, ih htp j hj]
      have hmem : t.get ⟨j, hj⟩ ∈ t := List.get_mem t j hj
      have hle : a ≤ t.get ⟨j, hj⟩ := le_of_lt (hhead _ hmem)
      simp only [List.get_eq_getElem] at hle
      simp [hle]

/-- C5: Layout offset monotonicity and lookup consistency — for a loaded
document (nonnegative page heights) at any zoom in `[0.1, 8.0]`,
`_recalculate_layout` yields one offset per page, strictly increasing
offsets, and `page_at_y(page_offsets[i]) == i` for every page. -/
theorem layout_offsets_monotone_lookup (pageHeightsPts : List ℚ) (zoom : ℚ)
    (hnn : ∀ h ∈ pageHeightsPts, 0 ≤ h) (hz1 : 1/10 ≤ zoom) (hz2 : zoom ≤ 8) :
    (recalcPageOffsets pageHeightsPts zoom).length = pageHeightsPts.length ∧
    (∀ (i : ℕ) (hi : i + 1 < (recalcPageOffsets pageHeightsPts zoom).length),
      (recalcPageOffsets pageHeightsPts zoom).get ⟨i, Nat.lt_of_succ_lt hi⟩ <
        (recalcPageOffsets pageHeightsPts zoom).get ⟨i + 1, hi⟩) ∧
    (∀ (i : ℕ) (hi : i < (recalcPageOffsets pageHeightsPts zoom).length),
      pageAtY (recalcPageOffsets pageHeightsPts zoom)
        ((recalcPageOffsets pageHeightsPts zoom).get ⟨i, hi⟩) = (i : ℤ)) := by
  have hz : (0 : ℚ) ≤ zoom := by linarith
  have hsorted : (recalcPageOffsets pageHeightsPts zoom).Pairwise (· < ·) :=
    layoutOffsetsGo_sorted zoom hz pageHeightsPts hnn PAGE_GAP
  refine ⟨layoutOffsetsGo_length zoom pageHeightsPts PAGE_GAP, ?_, ?_⟩
  · intro i hi
    exact List.pairwise_iff_get.mp hsorted ⟨i, Nat.lt_of_succ_lt hi⟩ ⟨i + 1, hi⟩
      (Nat.lt_succ_self i)
  · intro i hi
    have hne : ¬(recalcPageOffsets pageHeightsPts zoom).isEmpty := by
      rw [List.isEmpty_iff]
      intro hempty
      rw [hempty] at hi
      simp at hi
    have hcount := sorted_countP_get _ hsorted i hi
    simp only [pageAtY, bisectRight, hne, if_false, Bool.false_eq_true, hcount]
    have hlen : i < (recalcPageOffsets pageHeightsPts zoom).length := hi
    have h1 : ((i + 1 : ℕ) : ℤ) - 1 = (i : ℤ) := by push_cast; ring
    rw [h1]
    rw [min_eq_left (by omega : (i : ℤ) ≤ ((recalcPageOffsets pageHeightsPts zoom).length : ℤ) - 1)]
    exact max_eq_right (by positivity)

/-- Witness for C5 at a concrete two-page document (heights 100pt and
50pt) at zoom 1. -/
theorem layout_offsets_monotone_lookup_witness :
    (∀ h ∈ [(100 : ℚ), 50], 0 ≤ h) ∧ (1 : ℚ)/10 ≤ 1 ∧ (1 : ℚ) ≤ 8 ∧
    ((recalcPageOffsets [(100 : ℚ), 50] 1).length = 2 ∧
     (∀ (i : ℕ) (hi : i + 1 < (recalcPageOffsets [(100 : ℚ), 50] 1).length),
       (recalcPageOffsets [(100 : ℚ), 50] 1).get ⟨i, Nat.lt_of_succ_lt hi⟩ <
         (recalcPageOffsets [(100 : ℚ), 50] 1).get ⟨i + 1, hi⟩) ∧
     (∀ (i : ℕ) (hi : i < (recalcPageOffsets [(100 : ℚ), 50] 1).length),
       pageAtY (recalcPageOffsets [(100 : ℚ), 50] 1)
         ((recalcPageOffsets [(100 : ℚ), 50] 1).get ⟨i, hi⟩) = (i : ℤ))) :=
  ⟨by norm_num, by norm_num, by norm_num,
   layout_offsets_monotone_lookup [(100 : ℚ), 50] 1
     (by norm_num) (by norm_num) (by norm_num)⟩

/-- A pending native text edit with changed, non-blank text on a valid
page is written into the document by `_commit_text_edit`: the page gains
the cover-and-insert operations and the edit widget is cleared. -/
theorem commitTextEdit_commits (env : EditEnv) (w : Widget)
    (newText : List Char) (info : LineInfo) (pages : List PageM)
    (hw : w.textEditWidget = some newText)
    (hinfo : w.textEditLineInfo = some info)
    (hne : newText ≠ info.text)
    (hblank : pyStrip newText ≠ [])
    (hdoc : w.doc = some pages)
    (hpage : 0 ≤ w.textEditPage ∧ w.textEditPage < (pages.length : ℤ)) :
    (commitTextEdit env w).doc
        = some (pages.set w.textEditPage.toNat
            ((pages.getD w.textEditPage.toNat []) ++
              commitOps env info newText w.textEditPage.toNat)) ∧
    (commitTextEdit env w).textEditWidget = none := by
  have hcond : ¬(newText = info.text ∨ pyStrip newText = []) := by
    rw [not_or]
    exact ⟨hne, hblank⟩
  simp only [commitTextEdit, hw, hinfo, hdoc]
  rw [if_neg hcond, if_pos hpage]
  exact ⟨rfl, rfl⟩

/-- Whatever the active mode, `_exit_current_mode` ends in Normal mode. -/
theorem exitCurrentMode_mode (env : EditEnv) (w : Widget) :
    (exitCurrentMode env w).mode = Mode.normal := by
  unfold exitCurrentMode
  split_ifs with h
  · exact h
  all_goals rfl

/-- `_commit_text_edit` always clears the edit widget, on every branch
(unchanged text, blank text, missing document, bad page, or success). -/
theorem commitTextEdit_clears_widget (env : EditEnv) (w : Widget) (txt : List Char)
    (hw : w.textEditWidget = some txt) :
    (commitTextEdit env w).textEditWidget = none := by
  simp only [commitTextEdit, hw]
  split
  · rfl
  · split_ifs with h1
    · rfl
    · split
      · rfl
      · split_ifs <;> rfl

/-- Exiting from Crop mode clears the crop drag state and callback. -/
theorem exitCurrentMode_crop_state (env : EditEnv) (w : Widget)
    (hmode : w.mode = Mode.crop) :
    (exitCurrentMode env w).cropStartPos = none ∧
    (exitCurrentMode env w).cropCurrentPos = none ∧
    (exitCurrentMode env w).cropCallback = none := by
  have hnn : ¬(w.mode = Mode.normal) := by
    rw [hmode]
    exact fun h => Mode.noConfusion h
  unfold exitCurrentMode
  rw [if_neg hnn, hmode]
  exact ⟨rfl, rfl, rfl⟩

/-- Exiting from TextPlacement mode clears the pending text config. -/
theorem exitCurrentMode_textPlacement_state (env : EditEnv) (w : Widget)
    (hmode : w.mode = Mode.textPlacement) :
    (exitCurrentMode env w).pendingTextConfig = none := by
  have hnn : ¬(w.mode = Mode.normal) := by
    rw [hmode]
    exact fun h => Mode.noConfusion h
  unfold exitCurrentMode
  rw [if_neg hnn, hmode]

/-- Exiting from TextEdit mode clears the edit widget (committing it
first when one is open), the per-page line cache and the hover state. -/
theorem exitCurrentMode_textEdit_state (env : EditEnv) (w : Widget)
    (hmode : w.mode = Mode.textEdit) :
    (exitCurrentMode env w).textEditWidget = none ∧
    (exitCurrentMode env w).textEditLinesCache = [] ∧
    (exitCurrentMode env w).textEditHoverLine = none ∧
    (exitCurrentMode env w).textEditHoverPage = -1 := by
  have hnn : ¬(w.mode = Mode.normal) := by
    rw [hmode]
    exact fun h => Mode.noConfusion h
  unfold exitCurrentMode
  rw [if_neg hnn, hmode]
  by_cases hw : w.textEditWidget.isSome = true
  · rw [if_pos hw]
    obtain ⟨txt, htxt⟩ := Option.isSome_iff_exists.mp hw
    exact ⟨commitTextEdit_clears_widget env w txt htxt, rfl, rfl, rfl⟩
  · rw [if_neg hw]
    refine ⟨?_, rfl, rfl, rfl⟩
    cases hval : w.textEditWidget with
    | none => rfl
    | some t => exact absurd (by rw [hval]; rfl) hw

/-- Exiting TextEdit mode with a pending edit commits it and returns to
Normal mode. -/
theorem exitCurrentMode_commits (env : EditEnv) (w : Widget)
    (newText : List Char) (info : LineInfo) (pages : List PageM)
    (hmode : w.mode = Mode.textEdit)
    (hw : w.textEditWidget = some newText)
    (hinfo : w.textEditLineInfo = some info)
    (hne : newText ≠ info.text)
    (hblank : pyStrip newText ≠ [])
    (hdoc : w.doc = some pages)
    (hpage : 0 ≤ w.textEditPage ∧ w.textEditPage < (pages.length : ℤ)) :
    (exitCurrentMode env w).mode = Mode.normal ∧
    (exitCurrentMode env w).textEditWidget = none ∧
    (exitCurrentMode env w).doc
        = some (pages.set w.textEditPage.toNat
            ((pages.getD w.textEditPage.toNat []) ++
              commitOps env info newText w.textEditPage.toNat)) := by
  obtain ⟨hcdoc, hcw⟩ := commitTextEdit_commits env w newText info pages
    hw hinfo hne hblank hdoc hpage
  have hnn : ¬(w.mode = Mode.normal) := by
    rw [hmode]
    intro hcon
    exact Mode.noConfusion hcon
  have hsome : w.textEditWidget.isSome = true := by
    rw [hw]
    rfl
  simp only [exitCurrentMode, hmode, if_neg hnn, hsome, if_true]
  exact ⟨rfl, hcw, hcdoc⟩

/-- C4: Mode-entry cleanup — for every widget state, each of
`enter_crop_mode`, `enter_text_placement_mode` and `enter_text_edit_mode`
first exits whatever mode is active (exit lands in Normal) and that
mode's cleanup is already in effect when the new mode is active: a prior
Crop mode has its drag state and callback cleared, a prior TextPlacement
mode has its pending config cleared, a prior TextEdit mode has its edit
widget closed and its line cache and hover state cleared; in particular
an uncommitted native text edit with changed non-blank text on a valid
page is committed — the document page carries the new text — before
Crop (or any other) mode becomes active. -/
theorem mode_entry_cleanup (env : EditEnv) (w : Widget) (config callback : ℕ) :
    ((exitCurrentMode env w).mode = Mode.normal ∧
     (enterCropMode env callback w).mode = Mode.crop ∧
     (enterTextPlacementMode env config w).mode = Mode.textPlacement ∧
     (enterTextEditMode env w).mode = Mode.textEdit) ∧
    (w.mode = Mode.crop →
      ((enterCropMode env callback w).cropStartPos = none ∧
       (enterCropMode env callback w).cropCurrentPos = none ∧
       (enterCropMode env callback w).cropCallback = some callback) ∧
      ((enterTextPlacementMode env config w).cropStartPos = none ∧
       (enterTextPlacementMode env config w).cropCurrentPos = none ∧
       (enterTextPlacementMode env config w).cropCallback = none) ∧
      ((enterTextEditMode env w).cropStartPos = none ∧
       (enterTextEditMode env w).cropCurrentPos = none ∧
       (enterTextEditMode env w).cropCallback = none)) ∧
    (w.mode = Mode.textPlacement →
      (enterCropMode env callback w).pendingTextConfig = none ∧
      (enterTextEditMode env w).pendingTextConfig = none ∧
      (enterTextPlacementMode env config w).pendingTextConfig = some config) ∧
    (w.mode = Mode.textEdit →
      ((enterCropMode env callback w).textEditWidget = none ∧
       (enterCropMode env callback w).textEditLinesCache = [] ∧
       (enterCropMode env callback w).textEditHoverLine = none ∧
       (enterCropMode env callback w).textEditHoverPage = -1) ∧
      ((enterTextPlacementMode env config w).textEditWidget = none ∧
       (enterTextPlacementMode env config w).textEditLinesCache = [] ∧
       (enterTextPlacementMode env config w).textEditHoverLine = none ∧
       (enterTextPlacementMode env config w).textEditHoverPage = -1) ∧
      ((enterTextEditMode env w).textEditWidget = none ∧
       (enterTextEditMode env w).textEditLinesCache = [] ∧
       (enterTextEditMode env w).textEditHoverLine = none ∧
       (enterTextEditMode env w).textEditHoverPage = -1)) ∧
    (∀ (newText : List Char) (info : LineInfo) (pages : List PageM),
      w.mode = Mode.textEdit →
      w.textEditWidget = some newText →
      w.textEditLineInfo = some info →
      newText ≠ info.text →
      pyStrip newText ≠ [] →
      w.doc = some pages →
      0 ≤ w.textEditPage →
      w.textEditPage < (pages.length : ℤ) →
      (enterCropMode env callback w).doc
          = some (pages.set w.textEditPage.toNat
              ((pages.getD w.textEditPage.toNat []) ++
                commitOps env info newText w.textEditPage.toNat)) ∧
      (enterTextPlacementMode env config w).doc = (enterCropMode env callback w).doc ∧
      (enterTextEditMode env w).doc = (enterCropMode env callback w).doc ∧
      (enterCropMode env callback w).textEditWidget = none) := by
  refine ⟨⟨exitCurrentMode_mode env w, rfl, rfl, rfl⟩, ?_, ?_, ?_, ?_⟩
  · intro hm
    obtain ⟨h1, h2, h3⟩ := exitCurrentMode_crop_state env w hm
    exact ⟨⟨h1, h2, rfl⟩, ⟨h1, h2, h3⟩, ⟨h1, h2, h3⟩⟩
  · intro hm
    have h1 := exitCurrentMode_textPlacement_state env w hm
    exact ⟨h1, h1, rfl⟩
  · intro hm
    obtain ⟨h1, h2, h3, h4⟩ := exitCurrentMode_textEdit_state env w hm
    exact ⟨⟨h1, h2, h3, h4⟩, ⟨h1, h2, h3, h4⟩, ⟨h1, rfl, h3, h4⟩⟩
  · intro newText info pages hm hw hinfo hne hblank hdoc h0 h1
    obtain ⟨hxm, hxw, hxd⟩ := exitCurrentMode_commits env w newText info pages
      hm hw hinfo hne hblank hdoc ⟨h0, h1⟩
    exact ⟨hxd, rfl, rfl, hxw⟩

/-- Witness for C4: entering TextPlacement from an active Crop mode
clears the crop drag state, and entering Crop from TextEdit mode with a
pending edit (changing "a" to "b") commits the edit into the one-page
document before Crop is active. -/
theorem mode_entry_cleanup_witness :
    ((enterTextPlacementMode
        { sampleBg := fun _ _ => (1, 1, 1), resolveFont := fun _ _ => 0 } 5
        { mode := Mode.crop, pendingTextConfig := none,
          cropStartPos := some (1, 2), cropCurrentPos := some (3, 4),
          cropCallback := some 9,
          textEditWidget := none, textEditLineInfo := none,
          textEditPage := -1, textEditLinesCache := [],
          textEditHoverLine := none, textEditHoverPage := -1,
          selectedAnnot := none, selectedPage := 0,
          doc := some [[]], docBytesSnapshot := none,
          renderCache := [], lowResCache := [] }).cropStartPos = none ∧
     (enterTextPlacementMode
        { sampleBg := fun _ _ => (1, 1, 1), resolveFont := fun _ _ => 0 } 5
        { mode := Mode.crop, pendingTextConfig := none,
          cropStartPos := some (1, 2), cropCurrentPos := some (3, 4),
          cropCallback := some 9,
          textEditWidget := none, textEditLineInfo := none,
          textEditPage := -1, textEditLinesCache := [],
          textEditHoverLine := none, textEditHoverPage := -1,
          selectedAnnot := none, selectedPage := 0,
          doc := some [[]], docBytesSnapshot := none,
          renderCache := [], lowResCache := [] }).cropCallback = none) ∧
    (enterCropMode { sampleBg := fun _ _ => (1, 1, 1), resolveFont := fun _ _ => 0 } 7
        { mode := Mode.textEdit, pendingTextConfig := none,
          cropStartPos := none, cropCurrentPos := none, cropCallback := none,
          textEditWidget := some ['b'],
          textEditLineInfo := some
            { text := ['a'], bbox := (0, 0, 10, 12), font := [], size := 12,
              color := 0, origin := (0, 10), firstCharX := some 0 },
          textEditPage := 0, textEditLinesCache := [0],
          textEditHoverLine := none, textEditHoverPage := 0,
          selectedAnnot := none, selectedPage := 0,
          doc := some [[]], docBytesSnapshot := none,
          renderCache := [], lowResCache := [] }).mode = Mode.crop ∧
    (enterCropMode { sampleBg := fun _ _ => (1, 1, 1), resolveFont := fun _ _ => 0 } 7
        { mode := Mode.textEdit, pendingTextConfig := none,
          cropStartPos := none, cropCurrentPos := none, cropCallback := none,
          textEditWidget := some ['b'],
          textEditLineInfo := some
            { text := ['a'], bbox := (0, 0, 10, 12), font := [], size := 12,
              color := 0, origin := (0, 10), firstCharX := some 0 },
          textEditPage := 0, textEditLinesCache := [0],
          textEditHoverLine := none, textEditHoverPage := 0,
          selectedAnnot := none, selectedPage := 0,
          doc := some [[]], docBytesSnapshot := none,
          renderCache := [], lowResCache := [] }).textEditWidget = none ∧
    (enterCropMode { sampleBg := fun _ _ => (1, 1, 1), resolveFont := fun _ _ => 0 } 7
        { mode := Mode.textEdit, pendingTextConfig := none,
          cropStartPos := none, cropCurrentPos := none, cropCallback := none,
          textEditWidget := some ['b'],
          textEditLineInfo := some
            { text := ['a'], bbox := (0, 0, 10, 12), font := [], size := 12,
              color := 0, origin := (0, 10), firstCharX := some 0 },
          textEditPage := 0, textEditLinesCache := [0],
          textEditHoverLine := none, textEditHoverPage := 0,
          selectedAnnot := none, selectedPage := 0,
          doc := some [[]], docBytesSnapshot := none,
          renderCache := [], lowResCache := [] }).doc
      = some [[PageOp.drawRect (-1, -1, 11, 13) (1, 1, 1),
               PageOp.insertText (0, 10) ['b'] 12 (0, 0, 0) 0]] := by
  have hcrop := (mode_entry_cleanup
      { sampleBg := fun _ _ => (1, 1, 1), resolveFont := fun _ _ => 0 }
      { mode := Mode.crop, pendingTextConfig := none,
        cropStartPos := some (1, 2), cropCurrentPos := some (3, 4),
        cropCallback := some 9,
        textEditWidget := none, textEditLineInfo := none,
        textEditPage := -1, textEditLinesCache := [],
        textEditHoverLine := none, textEditHoverPage := -1,
        selectedAnnot := none, selectedPage := 0,
        doc := some [[]], docBytesSnapshot := none,
        renderCache := [], lowResCache := [] } 5 7).2.1 rfl
  have hte := mode_entry_cleanup
      { sampleBg := fun _ _ => (1, 1, 1), resolveFont := fun _ _ => 0 }
      { mode := Mode.textEdit, pendingTextConfig := none,
        cropStartPos := none, cropCurrentPos := none, cropCallback := none,
        textEditWidget := some ['b'],
        textEditLineInfo := some
          { text := ['a'], bbox := (0, 0, 10, 12), font := [], size := 12,
            color := 0, origin := (0, 10), firstCharX := some 0 },
        textEditPage := 0, textEditLinesCache := [0],
        textEditHoverLine := none, textEditHoverPage := 0,
        selectedAnnot := none, selectedPage := 0,
        doc := some [[]], docBytesSnapshot := none,
        renderCache := [], lowResCache := [] } 5 7
  have hcommit := hte.2.2.2.2 ['b']
      { text := ['a'], bbox := (0, 0, 10, 12), font := [], size := 12,
        color := 0, origin := (0, 10), firstCharX := some 0 }
      [[]]
      rfl rfl rfl (by decide) (by decide) rfl (by decide) (by decide)
  refine ⟨⟨hcrop.2.1.1, hcrop.2.1.2.2⟩, hte.1.2.1, hcommit.2.2.2, ?_⟩
  rw [hcommit.1]
  norm_num [commitOps]

/-- C9: The aspect-preserving stamp-resize branch keeps the new
rectangle's width/height ratio equal to the original rectangle's
width/height ratio, for any corner anchor and drag position. -/
theorem stamp_resize_preserves_aspect (ox0 oy0 ox1 oy1 ax ay px py zoom : ℚ)
    (hw : 0 < ox1 - ox0) (hh : 0 < oy1 - oy0) (hz : 0 < zoom) :
    ((stampResizeRect ox0 oy0 ox1 oy1 ax ay px py zoom).2.2.1 -
        (stampResizeRect ox0 oy0 ox1 oy1 ax ay px py zoom).1) /
      ((stampResizeRect ox0 oy0 ox1 oy1 ax ay px py zoom).2.2.2 -
        (stampResizeRect ox0 oy0 ox1 oy1 ax ay px py zoom).2.1) =
      (ox1 - ox0) / (oy1 - oy0) := by
  have hW : ox1 - ox0 ≠ 0 := ne_of_gt hw
  have hH : oy1 - oy0 ≠ 0 := ne_of_gt hh
  have h20 : (0 : ℚ) < 20 / zoom := by positivity
  simp only [stampResizeRect, if_pos (show 0 < ox1 - ox0 ∧ 0 < oy1 - oy0 from ⟨hw, hh⟩)]
  by_cases hbr : |py - ay| < |px - ax| / ((ox1 - ox0) / (oy1 - oy0))
  · have hnw : max |px - ax| (20 / zoom) ≠ 0 :=
      ne_of_gt (lt_of_lt_of_le h20 (le_max_right _ _))
    rw [if_pos hbr]
    dsimp only
    rw [add_sub_cancel_left, add_sub_cancel_left]
    field_simp
    ring
  · have hnh : max |py - ay| (20 / zoom) ≠ 0 :=
      ne_of_gt (lt_of_lt_of_le h20 (le_max_right _ _))
    rw [if_neg hbr]
    dsimp only
    rw [add_sub_cancel_left, add_sub_cancel_left]
    exact mul_div_cancel_left₀ _ hnh

/-- Witness for C9 at the spec's example: a 100×50 stamp (2:1), anchor at
the top-left corner, bottom-right handle dragged to `(140, 60)` at zoom
1 — the resulting ratio is still 2:1. -/
theorem stamp_resize_preserves_aspect_witness :
    (0 : ℚ) < 100 - 0 ∧ (0 : ℚ) < 50 - 0 ∧ (0 : ℚ) < 1 ∧
    ((stampResizeRect 0 0 100 50 0 0 140 60 1).2.2.1 -
        (stampResizeRect 0 0 100 50 0 0 140 60 1).1) /
      ((stampResizeRect 0 0 100 50 0 0 140 60 1).2.2.2 -
        (stampResizeRect 0 0 100 50 0 0 140 60 1).2.1) =
      ((100 : ℚ) - 0) / (50 - 0) :=
  ⟨by norm_num, by norm_num, by norm_num,
   stamp_resize_preserves_aspect 0 0 100 50 0 0 140 60 1
     (by norm_num) (by norm_num) (by norm_num)⟩

/-! ### Wrapping lemmas (character wrap, claims about `_fitz_char_wrap_text`) -/

/-- Concatenating the greedy chunks recovers the input characters. -/
theorem wrapGo_flatten (w : Char → ℚ) (lim : ℚ) :
    ∀ (rest cur : List Char) (curW : ℚ),
      (wrapGo w lim cur curW rest).flatten = cur ++ rest := by
  intro rest
  induction rest with
  | nil =>
    intro cur curW
    by_cases h : cur = [] <;> simp [wrapGo, h]
  | cons c cs ih =>
    intro cur curW
    rw [wrapGo]
    split_ifs with h
    · rw [List.flatten_cons, ih]
      simp
    · rw [ih]
      simp

/-- Joining-with-newlines of a chunk list has the same newline-free
characters as its plain concatenation. -/
theorem removeNL_intercalateNL (ls : List (List Char)) :
    removeNL (intercalateNL ls) = removeNL ls.flatten := by
  induction ls with
  | nil => rfl
  | cons l ls ih =>
    cases ls with
    | nil => simp [intercalateNL, removeNL]
    | cons l2 ls2 =>
      rw [show intercalateNL (l :: l2 :: ls2) = l ++ '\n' :: intercalateNL (l2 :: ls2)
          from rfl]
      rw [List.flatten_cons]
      simp only [removeNL, List.filter_append] at ih ⊢
      congr 1

/-- The per-line chunk list flattens back to the line. -/
theorem wrapLine_flatten (w : Char → ℚ) (lim : ℚ) (line : List Char) :
    (wrapLine w lim line).flatten = line := by
  by_cases h : line = []
  · simp [wrapLine, h]
  · rw [wrapLine, if_neg h, wrapGo_flatten]
    rfl

/-- Flattening all chunks of all lines recovers the concatenated lines. -/
theorem flatMap_wrapLine_flatten (w : Char → ℚ) (lim : ℚ) :
    ∀ lines : List (List Char),
      (lines.flatMap (wrapLine w lim)).flatten = lines.flatten := by
  intro lines
  induction lines with
  | nil => rfl
  | cons l ls ih =>
    rw [List.flatMap_cons, List.flatten_append, wrapLine_flatten, ih,
      List.flatten_cons]

/-- Splitting on newlines always yields at least one line. -/
theorem splitOnNL_ne_nil : ∀ t : List Char, splitOnNL t ≠ [] := by
  intro t
  cases t with
  | nil => simp [splitOnNL]
  | cons c cs =>
    rw [splitOnNL]
    split_ifs
    · simp
    · cases hs : splitOnNL cs with
      | nil => simp
      | cons l ls => simp

/-- Rejoining the split lines recovers the original text. -/
theorem intercalateNL_splitOnNL : ∀ t : List Char, intercalateNL (splitOnNL t) = t := by
  intro t
  induction t with
  | nil => rfl
  | cons c cs ih =>
    rw [splitOnNL]
    split_ifs with h
    · subst h
      cases hs : splitOnNL cs with
      | nil => exact absurd hs (splitOnNL_ne_nil cs)
      | cons l ls =>
        rw [hs] at ih
        rw [show intercalateNL ([] :: l :: ls) = [] ++ '\n' :: intercalateNL (l :: ls)
            from rfl, ih]
        rfl
    · cases hs : splitOnNL cs with
      | nil => exact absurd hs (splitOnNL_ne_nil cs)
      | cons l ls =>
        rw [hs] at ih
        cases ls with
        | nil =>
          simp only [intercalateNL] at ih ⊢
          rw [ih]
        | cons l2 ls2 =>
          rw [show intercalateNL ((c :: l) :: l2 :: ls2)
              = (c :: l) ++ '\n' :: intercalateNL (l2 :: ls2) from rfl]
          rw [show intercalateNL (l :: l2 :: ls2)
              = l ++ '\n' :: intercalateNL (l2 :: ls2) from rfl] at ih
          rw [← ih]
          rfl

/-- Lines produced by splitting on newlines contain no newline. -/
theorem splitOnNL_no_nl : ∀ t : List Char, ∀ l ∈ splitOnNL t, '\n' ∉ l := by
  intro t
  induction t with
  | nil =>
    intro l hl
    simp [splitOnNL] at hl
    subst hl
    simp
  | cons c cs ih =>
    intro l hl
    rw [splitOnNL] at hl
    split_ifs at hl with h
    · rcases List.mem_cons.mp hl with rfl | hl2
      · simp
      · exact ih l hl2
    · cases hs : splitOnNL cs with
      | nil => exact absurd hs (splitOnNL_ne_nil cs)
      | cons l0 ls =>
        rw [hs] at hl
        rcases List.mem_cons.mp hl with rfl | hl2
        · intro hmem
          rcases List.mem_cons.mp hmem with hc | hmem2
          · exact h hc.symm
          · exact ih l0 (hs ▸ List.mem_cons_self l0 ls) hmem2
        · exact ih l (hs ▸ List.mem_cons_of_mem l0 hl2)

/-- A newline-free string splits into exactly itself. -/
theorem splitOnNL_nl_free : ∀ l : List Char, '\n' ∉ l → splitOnNL l = [l] := by
  intro l
  induction l with
  | nil => intro _; rfl
  | cons c cs ih =>
    intro hnl
    have hc : ¬(c = '\n') := fun hc => hnl (hc ▸ List.mem_cons_self c cs)
    have hcs : '\n' ∉ cs := fun hm => hnl (List.mem_cons_of_mem c hm)
    rw [splitOnNL, if_neg hc, ih hcs]

/-- Splitting after a newline-free head segment peels it off. -/
theorem splitOnNL_append_nl :
    ∀ (l t : List Char), '\n' ∉ l → splitOnNL (l ++ '\n' :: t) = l :: splitOnNL t := by
  intro l
  induction l with
  | nil =>
    intro t _
    rw [List.nil_append, splitOnNL, if_pos rfl]
  | cons c cs ih =>
    intro t hnl
    have hc : ¬(c = '\n') := fun hc => hnl (hc ▸ List.mem_cons_self c cs)
    have hcs : '\n' ∉ cs := fun hm => hnl (List.mem_cons_of_mem c hm)
    rw [List.cons_append, splitOnNL, if_neg hc, ih t hcs]

/-- Splitting the newline-join of newline-free lines recovers the lines. -/
theorem splitOnNL_intercalateNL :
    ∀ ls : List (List Char), ls ≠ [] → (∀ l ∈ ls, '\n' ∉ l) →
      splitOnNL (intercalateNL ls) = ls := by
  intro ls
  induction ls with
  | nil => intro h _; exact absurd rfl h
  | cons l ls2 ih =>
    intro _ hnl
    cases ls2 with
    | nil =>
      exact splitOnNL_nl_free l (hnl l (List.mem_cons_self l []))
    | cons l2 ls3 =>
      rw [show intercalateNL (l :: l2 :: ls3) = l ++ '\n' :: intercalateNL (l2 :: ls3)
          from rfl]
      rw [splitOnNL_append_nl _ _ (hnl l (List.mem_cons_self l _))]
      rw [ih (by simp) (fun a ha => hnl a (List.mem_cons_of_mem l ha))]

/-- The greedy loop never returns an empty chunk list on nonempty input. -/
theorem wrapGo_ne_nil (w : Char → ℚ) (lim : ℚ) :
    ∀ (rest cur : List Char) (curW : ℚ), cur ≠ [] ∨ rest ≠ [] →
      wrapGo w lim cur curW rest ≠ [] := by
  intro rest
  induction rest with
  | nil =>
    intro cur curW h
    have hcur : cur ≠ [] := h.resolve_right (fun hr => hr rfl)
    rw [wrapGo, if_neg hcur]
    simp
  | cons c cs ih =>
    intro cur curW _
    rw [wrapGo]
    split_ifs with h
    · simp
    · exact ih (cur ++ [c]) (curW + w c) (Or.inl (by simp))

/-- The per-line wrap never yields an empty chunk list. -/
theorem wrapLine_ne_nil (w : Char → ℚ) (lim : ℚ) (l : List Char) :
    wrapLine w lim l ≠ [] := by
  by_cases h : l = []
  · simp [wrapLine, h]
  · rw [wrapLine, if_neg h]
    exact wrapGo_ne_nil w lim l [] 0 (Or.inr h)

/-- Every character of an emitted chunk comes from the input. -/
theorem wrapGo_subset (w : Char → ℚ) (lim : ℚ) (rest cur : List Char) (curW : ℚ)
    (chunk : List Char) (hmem : chunk ∈ wrapGo w lim cur curW rest) :
    ∀ a ∈ chunk, a ∈ cur ++ rest := by
  intro a ha
  have : a ∈ (wrapGo w lim cur curW rest).flatten := List.mem_flatten_of_mem hmem ha
  rwa [wrapGo_flatten] at this

/-- Measured width of a chunk extended by one character. -/
theorem sumW_append_single (w : Char → ℚ) (l : List Char) (c : Char) :
    sumW w (l ++ [c]) = sumW w l + w c := by
  simp [sumW]

/-- Chunks emitted by the greedy loop are nonempty and satisfy the
`GoodChunk` prefix-fit invariant. -/
theorem wrapGo_chunks_good (w : Char → ℚ) (lim : ℚ) :
    ∀ (rest cur : List Char) (curW : ℚ), curW = sumW w cur → GoodChunk w lim cur →
      ∀ chunk ∈ wrapGo w lim cur curW rest, chunk ≠ [] ∧ GoodChunk w lim chunk := by
  intro rest
  induction rest with
  | nil =>
    intro cur curW _ hgood chunk hmem
    rw [wrapGo] at hmem
    split_ifs at hmem with h
    · simp at hmem
    · simp at hmem
      subst hmem
      exact ⟨h, hgood⟩
  | cons c cs ih =>
    intro cur curW hsum hgood chunk hmem
    rw [wrapGo] at hmem
    split_ifs at hmem with h
    · rcases List.mem_cons.mp hmem with rfl | hmem2
      · exact ⟨h.2, hgood⟩
      · refine ih [c] (w c) (by simp [sumW]) ?_ chunk hmem2
        intro j hj hj1
        simp only [List.length_cons, List.length_nil] at hj1
        have : False := by omega
        exact this.elim
    · refine ih (cur ++ [c]) (curW + w c) (by simp [sumW, hsum]) ?_ chunk hmem
      intro j hj hj1
      rw [List.length_append, List.length_cons, List.length_nil] at hj1
      by_cases hcase : j + 1 ≤ cur.length
      · rw [List.take_append_of_le_length hcase]
        exact hgood j hj hcase
      · have htake : (cur ++ [c]).take (j + 1) = cur ++ [c] := by
          apply List.take_of_length_le
          rw [List.length_append, List.length_cons, List.length_nil]
          omega
        rw [htake]
        rcases not_and_or.mp h with h1 | h2
        · rw [sumW_append_single]
          rw [← hsum]
          exact not_lt.mp h1
        · have hcur : cur = [] := not_not.mp h2
          subst hcur
          simp only [List.length_nil] at hj1 hcase
          have : False := by omega
          exact this.elim

/-- If every extension prefix fits, the greedy loop emits a single chunk
containing everything. -/
theorem wrapGo_all_fits (w : Char → ℚ) (lim : ℚ) :
    ∀ (rest cur : List Char) (curW : ℚ), cur ≠ [] → curW = sumW w cur →
      (∀ j : ℕ, cur.length ≤ j → j + 1 ≤ cur.length + rest.length →
        sumW w ((cur ++ rest).take (j + 1)) ≤ lim) →
      wrapGo w lim cur curW rest = [cur ++ rest] := by
  intro rest
  induction rest with
  | nil =>
    intro cur curW hne _ _
    rw [wrapGo, if_neg hne]
    simp
  | cons c cs ih =>
    intro cur curW hne hsum hfit
    have hle : curW + w c ≤ lim := by
      have hf := hfit cur.length (le_refl _)
        (by rw [List.length_cons]; omega)
      have htake : (cur ++ c :: cs).take (cur.length + 1) = cur ++ [c] := by
        rw [show cur.length + 1 = cur.length + 1 from rfl, List.take_append]
        rfl
      rw [htake, sumW_append_single, ← hsum] at hf
      exact hf
    rw [wrapGo, if_neg (fun hcon => absurd hle (not_le.mpr hcon.1))]
    have hres := ih (cur ++ [c]) (curW + w c) (by simp)
      (by rw [hsum, sumW_append_single]) ?_
    · rw [hres]
      simp
    · intro j hj hj1
      rw [List.length_append, List.length_cons, List.length_nil] at hj hj1
      have hfit2 := hfit j (by omega)
        (by rw [List.length_cons]; omega)
      rw [show (cur ++ [c]) ++ cs = cur ++ c :: cs by simp]
      exact hfit2

/-- Re-running the greedy loop on one of its own chunks returns the
chunk unchanged. -/
theorem wrapGo_rewrap (w : Char → ℚ) (lim : ℚ) (chunk : List Char)
    (hne : chunk ≠ []) (hg : GoodChunk w lim chunk) :
    wrapGo w lim [] 0 chunk = [chunk] := by
  cases chunk with
  | nil => exact absurd rfl hne
  | cons c cs =>
    rw [wrapGo, if_neg (fun hcon => hcon.2 rfl)]
    exact wrapGo_all_fits w lim cs ([] ++ [c]) (0 + w c) (by simp)
      (by simp [sumW])
      (fun j hj hj1 => by
        simp only [List.nil_append, List.length_cons, List.length_nil] at hj hj1 ⊢
        exact hg j (by omega) (by rw [List.length_cons]; omega))

/-- C7: Character-wrap idempotence — for positive width and font size,
re-wrapping any single line of `_fitz_char_wrap_text`'s own output with
the same parameters returns that line unchanged. -/
theorem fitz_char_wrap_idempotent (w : Char → ℚ) (text : List Char)
    (maxWidth fontsize : ℚ) (hmw : 0 < maxWidth) (hfs : 0 < fontsize) :
    ∀ line ∈ splitOnNL (fitzCharWrapText w text maxWidth fontsize),
      fitzCharWrapText w line maxWidth fontsize = line := by
  by_cases htext : text = []
  · subst htext
    intro line hline
    rw [fitzCharWrapText, if_pos (Or.inl rfl)] at hline
    simp [splitOnNL] at hline
    subst hline
    rw [fitzCharWrapText, if_pos (Or.inl rfl)]
  · have hguard : ¬(text = [] ∨ maxWidth ≤ 0 ∨ fontsize ≤ 0) := by
      push_neg
      exact ⟨htext, hmw, hfs⟩
    intro line hline
    rw [fitzCharWrapText, if_neg hguard] at hline
    set lim := fitzEffectiveWidth maxWidth with hlim
    have hchunks_nl : ∀ chunk ∈ (splitOnNL text).flatMap (wrapLine w lim),
        '\n' ∉ chunk := by
      intro chunk hc hmem
      obtain ⟨l, hl, hcl⟩ := List.mem_flatMap.mp hc
      by_cases hlnil : l = []
      · subst hlnil
        rw [wrapLine, if_pos rfl] at hcl
        simp at hcl
        subst hcl
        simp at hmem
      · rw [wrapLine, if_neg hlnil] at hcl
        have := wrapGo_subset w lim l [] 0 chunk hcl '\n' hmem
        rw [List.nil_append] at this
        exact splitOnNL_no_nl text l hl this
    have hchunks_ne : (splitOnNL text).flatMap (wrapLine w lim) ≠ [] := by
      cases hs : splitOnNL text with
      | nil => exact absurd hs (splitOnNL_ne_nil text)
      | cons l ls =>
        rw [List.flatMap_cons]
        intro happ
        rcases List.append_eq_nil.mp happ with ⟨h1, _⟩
        exact wrapLine_ne_nil w lim l h1
    rw [splitOnNL_intercalateNL _ hchunks_ne hchunks_nl] at hline
    obtain ⟨l, hl, hchunk⟩ := List.mem_flatMap.mp hline
    by_cases hlnil : l = []
    · subst hlnil
      rw [wrapLine, if_pos rfl] at hchunk
      simp at hchunk
      subst hchunk
      rw [fitzCharWrapText, if_pos (Or.inl rfl)]
    · rw [wrapLine, if_neg hlnil] at hchunk
      obtain ⟨hcne, hcgood⟩ := wrapGo_chunks_good w lim l [] 0 rfl
        (fun j hj hj1 => by
          simp only [List.length_nil] at hj1
          have : False := by omega
          exact this.elim)
        line hchunk
      have hline_nl : '\n' ∉ line :=
        hchunks_nl line (List.mem_flatMap.mpr ⟨l, hl, by rw [wrapLine, if_neg hlnil]; exact hchunk⟩)
      rw [fitzCharWrapText, if_neg (by push_neg; exact ⟨hcne, hmw, hfs⟩)]
      rw [← hlim, splitOnNL_nl_free line hline_nl]
      rw [List.flatMap_cons, List.flatMap_nil, List.append_nil]
      rw [wrapLine, if_neg hcne]
      rw [wrapGo_rewrap w lim line hcne hcgood]
      rfl

/-- Witness for C7: wrapping a two-line text at width 10 (effective 6)
with all glyph widths 3, then re-wrapping each output line, changes
nothing. -/
theorem fitz_char_wrap_idempotent_witness :
    (0 : ℚ) < 10 ∧ (0 : ℚ) < 12 ∧
    (∀ line ∈ splitOnNL (fitzCharWrapText (fun _ => (3 : ℚ))
        ['a', 'b', 'c', 'd', 'e', '\n', 'f'] 10 12),
      fitzCharWrapText (fun _ => (3 : ℚ)) line 10 12 = line) :=
  ⟨by norm_num, by norm_num,
   fitz_char_wrap_idempotent (fun _ => (3 : ℚ))
     ['a', 'b', 'c', 'd', 'e', '\n', 'f'] 10 12 (by norm_num) (by norm_num)⟩

/-- C10: Character wrapping never alters text content — for every input,
width, and font parameters, both `_fitz_char_wrap_text` and
`_char_wrap_text` return the input's characters with only newlines
inserted or removed: stripping newlines from output and input gives the
same string. -/
theorem char_wrap_preserves_content (wfitz wqt : Char → ℚ) (text : List Char)
    (maxWidth fontsize : ℚ) :
    removeNL (fitzCharWrapText wfitz text maxWidth fontsize) = removeNL text ∧
    removeNL (charWrapText wqt text maxWidth fontsize) = removeNL text := by
  constructor
  · rw [fitzCharWrapText]
    split_ifs with h
    · rfl
    · rw [removeNL_intercalateNL, flatMap_wrapLine_flatten]
      conv_rhs => rw [← intercalateNL_splitOnNL text]
      rw [removeNL_intercalateNL]
  · rw [charWrapText]
    split_ifs with h
    · rfl
    · rw [removeNL_intercalateNL, flatMap_wrapLine_flatten]
      conv_rhs => rw [← intercalateNL_splitOnNL text]
      rw [removeNL_intercalateNL]

/-! ### Space-reconstruction lemmas (`_extract_line_text_from_chars`) -/

/-- Unpacking of the glyph well-formedness used by the space claim. -/
theorem goodGlyph_spec (ch : RawChar) (h : goodGlyph ch = true) :
    ∃ a b c d, ch.bbox = some (a, b, c, d) ∧ a < c ∧ ch.c ≠ [] ∧
      ∀ x ∈ ch.c, pyIsSpace x = false := by
  unfold goodGlyph at h
  cases hb : ch.bbox with
  | none =>
    rw [hb] at h
    exact absurd h (by simp)
  | some t =>
    obtain ⟨a, b, c, d⟩ := t
    rw [hb] at h
    simp only [Bool.and_eq_true, decide_eq_true_eq, Bool.not_eq_true',
      List.all_eq_true] at h
    obtain ⟨⟨h1, h2⟩, h3⟩ := h
    refine ⟨a, b, c, d, rfl, h1, ?_, ?_⟩
    · intro hcon
      rw [hcon] at h2
      simp at h2
    · intro x hx
      simpa using h3 x hx

/-- The character walk on well-formed glyphs equals the claim's
interleaving, up to a potential leading space governed by the incoming
`prev_x1`. -/
theorem extractGo_spec (θ : ℚ) :
    ∀ (gs : List (RawChar × ℚ)), (∀ p ∈ gs, goodGlyph p.1 = true) →
      ∀ (prevOpt : Option ℚ),
        extractGo θ prevOpt gs =
          (match prevOpt, gs with
           | some p, g :: _ =>
             if θ < (glyphProj g).2.1 - p then [' '] else []
           | _, _ => ([] : List Char)) ++
          specInterleave θ (gs.map glyphProj) := by
  intro gs
  induction gs with
  | nil =>
    intro _ prevOpt
    cases prevOpt <;> rfl
  | cons g gs2 ih =>
    intro hgood prevOpt
    obtain ⟨ch, fs⟩ := g
    obtain ⟨a, b, c, d, hb, _, hcne, _⟩ :=
      goodGlyph_spec ch (hgood (ch, fs) (List.mem_cons_self _ _))
    have hgood2 : ∀ p ∈ gs2, goodGlyph p.1 = true :=
      fun p hp => hgood p (List.mem_cons_of_mem _ hp)
    rw [extractGo]
    simp only [hb]
    rw [if_neg hcne]
    rw [ih hgood2 (some c)]
    cases gs2 with
    | nil =>
      cases prevOpt <;> simp [specInterleave, glyphProj, hb]
    | cons g2 gs3 =>
      obtain ⟨ch2, fs2⟩ := g2
      obtain ⟨a2, b2, c2, d2, hb2, _, _, _⟩ :=
        goodGlyph_spec ch2 (hgood2 (ch2, fs2) (List.mem_cons_self _ _))
      cases prevOpt <;>
        simp [specInterleave, glyphProj, hb, hb2, List.append_assoc]

/-- The interleaving starts with the first glyph's text. -/
theorem specInterleave_head (θ : ℚ) (g : List Char × ℚ × ℚ)
    (gs : List (List Char × ℚ × ℚ)) :
    ∃ suf, specInterleave θ (g :: gs) = g.1 ++ suf := by
  cases gs with
  | nil => exact ⟨[], by simp [specInterleave]⟩
  | cons g2 gs2 =>
    obtain ⟨c, x0, x1⟩ := g
    obtain ⟨c2, y0, y1⟩ := g2
    refine ⟨(if θ < y0 - x1 then [' '] else []) ++
      specInterleave θ ((c2, y0, y1) :: gs2), ?_⟩
    rw [specInterleave]
    simp [List.append_assoc]

/-- The interleaving ends with the last glyph's text. -/
theorem specInterleave_last (θ : ℚ) :
    ∀ (gs : List (List Char × ℚ × ℚ)) (g0 : List Char × ℚ × ℚ),
      ∃ pre glast, (g0 :: gs).getLast? = some glast ∧
        specInterleave θ (g0 :: gs) = pre ++ glast.1 := by
  intro gs
  induction gs with
  | nil =>
    intro g0
    exact ⟨[], g0, rfl, by simp [specInterleave]⟩
  | cons g1 gs2 ih =>
    intro g0
    obtain ⟨pre, glast, hlast, heq⟩ := ih g1
    obtain ⟨c, x0, x1⟩ := g0
    obtain ⟨c1, y0, y1⟩ := g1
    refine ⟨c ++ (if θ < y0 - x1 then [' '] else []) ++ pre, glast, ?_, ?_⟩
    · rw [List.getLast?_cons_cons]
      exact hlast
    · rw [specInterleave, heq]
      simp [List.append_assoc]

/-- Dropping leading space-characters is the identity when the head is
not a space. -/
theorem dropWhile_no_head_space (p : Char → Bool) :
    ∀ m : List Char, (∀ d, m.head? = some d → p d = false) → m.dropWhile p = m := by
  intro m hm
  cases m with
  | nil => rfl
  | cons c cs =>
    rw [List.dropWhile_cons, if_neg]
    rw [hm c rfl]
    simp

/-- Python `strip()` is the identity on a string whose first and last
characters are not whitespace. -/
theorem pyStrip_no_edge_space (l : List Char)
    (hhead : ∀ c, l.head? = some c → pyIsSpace c = false)
    (hlast : ∀ c, l.getLast? = some c → pyIsSpace c = false) :
    pyStrip l = l := by
  unfold pyStrip
  rw [dropWhile_no_head_space pyIsSpace l hhead]
  rw [dropWhile_no_head_space pyIsSpace l.reverse
    (fun c hc => hlast c (by rwa [List.head?_reverse] at hc))]
  exact List.reverse_reverse l

/-- C8: Space reconstruction — on a line whose glyphs all carry bboxes of
positive width and nonempty, non-whitespace text,
`_extract_line_text_from_chars` equals the claim's interleaving: between
consecutive glyphs exactly one space appears when the gap (next leading
edge minus previous trailing edge) exceeds `0.35 ×` the average glyph
width, and none otherwise, regardless of the gap's magnitude. -/
theorem extract_line_text_space_rule (spans : List RawSpan)
    (hne : allChars spans ≠ [])
    (hgood : ∀ p ∈ allChars spans, goodGlyph p.1 = true) :
    extractLineTextFromChars spans =
      specInterleave (spaceThreshold spans) ((allChars spans).map glyphProj) := by
  have hspans : spans ≠ [] := by
    intro h
    apply hne
    rw [h]
    rfl
  rw [extractLineTextFromChars, if_neg hspans, if_neg hne]
  rw [extractGo_spec (spaceThreshold spans) (allChars spans) hgood none]
  cases hcs : allChars spans with
  | nil => exact absurd hcs hne
  | cons g0 gs =>
    rw [List.nil_append]
    rw [hcs] at hgood
    obtain ⟨ch0, fs0⟩ := g0
    obtain ⟨a0, b0, c0, d0, hb0, _, hc0ne, hc0ns⟩ :=
      goodGlyph_spec ch0 (hgood (ch0, fs0) (List.mem_cons_self _ _))
    have hproj0 : glyphProj (ch0, fs0) = (ch0.c, a0, c0) := by
      simp [glyphProj, hb0]
    apply pyStrip_no_edge_space
    · intro c hc
      obtain ⟨suf, hsuf⟩ := specInterleave_head (spaceThreshold spans)
        (glyphProj (ch0, fs0)) (gs.map glyphProj)
      rw [List.map_cons, hsuf, hproj0] at hc
      obtain ⟨e0, erest, he⟩ := List.exists_cons_of_ne_nil hc0ne
      rw [he, List.cons_append, List.head?_cons] at hc
      have hce : e0 = c := by injection hc
      subst hce
      exact hc0ns e0 (he ▸ List.mem_cons_self _ _)
    · intro c hc
      obtain ⟨pre, glast, hlast, heq⟩ := specInterleave_last (spaceThreshold spans)
        (gs.map glyphProj) (glyphProj (ch0, fs0))
      rw [List.map_cons, heq] at hc
      have hglast : glast ∈ (glyphProj (ch0, fs0)) :: gs.map glyphProj :=
        List.mem_of_mem_getLast? hlast
      have hex : ∃ q ∈ (ch0, fs0) :: gs, glyphProj q = glast := by
        rcases List.mem_cons.mp hglast with h | h
        · exact ⟨(ch0, fs0), List.mem_cons_self _ _, h.symm⟩
        · obtain ⟨q, hq, hqe⟩ := List.mem_map.mp h
          exact ⟨q, List.mem_cons_of_mem _ hq, hqe⟩
      obtain ⟨q, hq, hqe⟩ := hex
      obtain ⟨aq, bq, cq, dq, hbq, _, hqne, hqns⟩ :=
        goodGlyph_spec q.1 (hgood q hq)
      have hprojq : glast.1 = q.1.c := by
        rw [← hqe]
        simp [glyphProj, hbq]
      rw [hprojq] at hc
      have hqcne : q.1.c ≠ [] := hqne
      rw [List.getLast?_append_of_ne_nil _ hqcne] at hc
      exact hqns c (List.mem_of_mem_getLast? hc)

/-- Witness for C8: two glyphs "H" (bbox 0–5) and "i" (bbox 10–14); the
average width is 4.5, the threshold 1.575, the gap 5, so exactly one
space is inserted. -/
theorem extract_line_text_space_rule_witness :
    allChars sampleHiSpans ≠ [] ∧
    (∀ p ∈ allChars sampleHiSpans, goodGlyph p.1 = true) ∧
    extractLineTextFromChars sampleHiSpans =
      specInterleave (spaceThreshold sampleHiSpans)
        ((allChars sampleHiSpans).map glyphProj) :=
  ⟨by simp [sampleHiSpans, allChars],
   by
     intro p hp
     norm_num [sampleHiSpans, allChars] at hp
     rcases hp with h | h <;> subst h <;> decide,
   extract_line_text_space_rule _
     (by simp [sampleHiSpans, allChars])
     (by
       intro p hp
       norm_num [sampleHiSpans, allChars] at hp
       rcases hp with h | h <;> subst h <;> decide)⟩

end PDFViewer
